import Mathlib

/-!
Shallow embedding of the SimSIMD binary-similarity kernels
(`include/simsimd/binary.h`) and the AVX2 int8 kernels
(`include/simsimd/x86_avx2_i8.h`), together with theorems settling the
frozen claims about them.

Modelling conventions:
- A vector operand (`simsimd_b8_t const*` / `simsimd_i8_t const*`) is a
  `List ℕ` of memory bytes; a read `a[i]` is `byteAt a i`, which truncates
  to a byte (`% 256`) exactly as an 8-bit load does.  Reads past the end of
  the list return 0; the readability preconditions `n ≤ a.length` appear as
  hypotheses where the claims assume them.
- Popcount accumulators (`simsimd_i32_t` in the scalar/NEON kernels, 64-bit
  lanes in the AVX-512 kernels) are modelled as exact naturals: a popcount
  sum is bounded by `8 * n_words`, so within the readable regime assumed by
  the claims none of those accumulators can overflow.
- The AVX2 int8 kernels are modelled bit-precisely, because their claims
  are about the exact lane arithmetic: bytes are unsigned residues,
  `asI8` is the signed reinterpretation, `_mm256_maddubs_epi16` is the
  unsigned-times-signed pairwise multiply-add with signed 16-bit
  saturation, and every 32-bit add wraps via `wrap32`.
- A returned `simsimd_f32_t` that is a cast of an integer count is
  represented by that integer; the final Jaccard expression
  `1 - intersection/union` is represented exactly in `ℚ`.
-/

namespace SimSIMD

/-- Memory read of byte `i` of operand `a`: an 8-bit load yields a value
below 256.  Out-of-range reads (which the C code never performs under the
readability precondition) default to 0. -/
def byteAt (a : List ℕ) (i : ℕ) : ℕ := a.getD i 0 % 256

/-- Number of set bits among the low `w` bits of `v`; `popcountW 8` is the
semantics of a hardware per-byte popcount (Arm `CNT`), `popcountW 64` of a
64-bit lane popcount (AVX-512 `VPOPCNTQ`). -/
def popcountW (w v : ℕ) : ℕ := ∑ t ∈ Finset.range w, if v.testBit t then 1 else 0

/-- The 256-entry lookup table of `simsimd_popcount_b8`
(`binary.h`, lines 29--38), transcribed verbatim. -/
def lookup_table : List ℕ :=
  [0, 1, 1, 2, 1, 2, 2, 3, 1, 2, 2, 3, 2, 3, 3, 4, 1, 2, 2, 3, 2, 3, 3, 4, 2, 3, 3, 4, 3, 4, 4, 5,
   1, 2, 2, 3, 2, 3, 3, 4, 2, 3, 3, 4, 3, 4, 4, 5, 2, 3, 3, 4, 3, 4, 4, 5, 3, 4, 4, 5, 4, 5, 5, 6,
   1, 2, 2, 3, 2, 3, 3, 4, 2, 3, 3, 4, 3, 4, 4, 5, 2, 3, 3, 4, 3, 4, 4, 5, 3, 4, 4, 5, 4, 5, 5, 6,
   2, 3, 3, 4, 3, 4, 4, 5, 3, 4, 4, 5, 4, 5, 5, 6, 3, 4, 4, 5, 4, 5, 5, 6, 4, 5, 5, 6, 5, 6, 6, 7,
   1, 2, 2, 3, 2, 3, 3, 4, 2, 3, 3, 4, 3, 4, 4, 5, 2, 3, 3, 4, 3, 4, 4, 5, 3, 4, 4, 5, 4, 5, 5, 6,
   2, 3, 3, 4, 3, 4, 4, 5, 3, 4, 4, 5, 4, 5, 5, 6, 3, 4, 4, 5, 4, 5, 5, 6, 4, 5, 5, 6, 5, 6, 6, 7,
   2, 3, 3, 4, 3, 4, 4, 5, 3, 4, 4, 5, 4, 5, 5, 6, 3, 4, 4, 5, 4, 5, 5, 6, 4, 5, 5, 6, 5, 6, 6, 7,
   3, 4, 4, 5, 4, 5, 5, 6, 4, 5, 5, 6, 5, 6, 6, 7, 4, 5, 5, 6, 5, 6, 6, 7, 5, 6, 6, 7, 6, 7, 7, 8]

/-- `simsimd_popcount_b8` (`binary.h`, lines 28--39): index the fixed
256-entry table with the byte value. -/
def simsimd_popcount_b8 (x : ℕ) : ℕ := lookup_table.getD x 0

/-- `simsimd_serial_b8_hamming` (`binary.h`, lines 41--47): the
`differences` accumulator after the loop.  The C function returns
`(simsimd_f32_t)differences`; the integer count is what the claims
compare. -/
def simsimd_serial_b8_hamming (a b : List ℕ) (n : ℕ) : ℕ :=
  (List.range n).foldl
    (fun differences i => differences + simsimd_popcount_b8 (byteAt a i ^^^ byteAt b i)) 0

/-- The `(intersection, union_)` accumulator pair of
`simsimd_serial_b8_jaccard` (`binary.h`, lines 49--55) after its loop. -/
def simsimd_serial_b8_jaccard_counts (a b : List ℕ) (n : ℕ) : ℕ × ℕ :=
  (List.range n).foldl
    (fun acc i =>
      (acc.1 + simsimd_popcount_b8 (byteAt a i &&& byteAt b i),
       acc.2 + simsimd_popcount_b8 (byteAt a i ||| byteAt b i))) (0, 0)

/-- The final Jaccard expression shared by all Jaccard kernels:
`(union_ != 0) ? 1 - (f32)intersection / (f32)union_ : 0`, represented
exactly in `ℚ`. -/
def jaccardFinal (iu : ℕ × ℕ) : ℚ :=
  if iu.2 ≠ 0 then 1 - (iu.1 : ℚ) / (iu.2 : ℚ) else 0

/-- `simsimd_serial_b8_jaccard` (`binary.h`, lines 49--55). -/
def simsimd_serial_b8_jaccard (a b : List ℕ) (n : ℕ) : ℚ :=
  jaccardFinal (simsimd_serial_b8_jaccard_counts a b n)

/-- Reference count the refinement claims are measured against: the total
popcount of the per-word XOR over the first `n` words. -/
def hammingSpec (a b : List ℕ) (n : ℕ) : ℕ :=
  ∑ i ∈ Finset.range n, popcountW 8 (byteAt a i ^^^ byteAt b i)

/-- Total popcount of the per-word AND (Jaccard intersection). -/
def interSpec (a b : List ℕ) (n : ℕ) : ℕ :=
  ∑ i ∈ Finset.range n, popcountW 8 (byteAt a i &&& byteAt b i)

/-- Total popcount of the per-word OR (Jaccard union). -/
def unionSpec (a b : List ℕ) (n : ℕ) : ℕ :=
  ∑ i ∈ Finset.range n, popcountW 8 (byteAt a i ||| byteAt b i)

/-- A predicated or masked byte load: lane `i` is read from memory when
`i < n` and zero-filled otherwise.  This is the semantics of the SVE
`svld1_u8` under a `whilelt` predicate and of the AVX-512
`_mm512_maskz_loadu_epi8` under a `bzhi` mask. -/
def maskedByteAt (a : List ℕ) (n i : ℕ) : ℕ := if i < n then byteAt a i else 0

/-- `simsimd_neon_b8_hamming` (`binary.h`, lines 60--74): 16-byte chunks,
each chunk contributing `vaddvq_u8 (vcntq_u8 (veorq_u8 a b))` (the sum of
the per-byte popcounts of the XOR, at most 128, so the `uint8_t` reduction
cannot wrap), followed by a scalar tail loop using the lookup table. -/
def simsimd_neon_b8_hamming (a b : List ℕ) (n : ℕ) : ℕ :=
  let main := (List.range (n / 16)).foldl
    (fun differences c => differences +
      (List.range 16).foldl
        (fun s j => s + popcountW 8 (byteAt a (16 * c + j) ^^^ byteAt b (16 * c + j))) 0) 0
  (List.range' (16 * (n / 16)) (n - 16 * (n / 16))).foldl
    (fun differences i => differences + simsimd_popcount_b8 (byteAt a i ^^^ byteAt b i)) main

/-- `simsimd_neon_b8_jaccard` (`binary.h`, lines 76--90): same chunking as
the NEON Hamming kernel, with AND/OR popcount sums and the shared final
Jaccard expression. -/
def simsimd_neon_b8_jaccard (a b : List ℕ) (n : ℕ) : ℚ :=
  let main := (List.range (n / 16)).foldl
    (fun acc c =>
      (acc.1 + (List.range 16).foldl
        (fun s j => s + popcountW 8 (byteAt a (16 * c + j) &&& byteAt b (16 * c + j))) 0,
       acc.2 + (List.range 16).foldl
        (fun s j => s + popcountW 8 (byteAt a (16 * c + j) ||| byteAt b (16 * c + j))) 0))
    (0, 0)
  jaccardFinal <|
    (List.range' (16 * (n / 16)) (n - 16 * (n / 16))).foldl
      (fun acc i =>
        (acc.1 + simsimd_popcount_b8 (byteAt a i &&& byteAt b i),
         acc.2 + simsimd_popcount_b8 (byteAt a i ||| byteAt b i))) main

/-- Trip count of the SVE `do {...} while (i < n_words)` loops: the body
runs once even for `n = 0`, and otherwise `⌈n / vl⌉` times, where `vl` is
the runtime vector length `svcntb()` (a positive number of bytes). -/
def sveTrips (vl n : ℕ) : ℕ := max 1 ((n + vl - 1) / vl)

/-- `simsimd_sve_b8_hamming` (`binary.h`, lines 97--110), parameterised by
the runtime vector length `vl = svcntb()`.  Iteration `t` loads bytes
`vl*t + j` under the `whilelt` predicate (zero-filling inactive lanes),
XORs, per-byte popcounts (`svcnt_u8`), and reduces with `svaddv_u8` into a
64-bit scalar added to `differences`. -/
def simsimd_sve_b8_hamming (vl : ℕ) (a b : List ℕ) (n : ℕ) : ℕ :=
  (List.range (sveTrips vl n)).foldl
    (fun differences t => differences +
      (List.range vl).foldl
        (fun s j => s +
          popcountW 8 (maskedByteAt a n (vl * t + j) ^^^ maskedByteAt b n (vl * t + j))) 0) 0

/-- `simsimd_sve_b8_jaccard` (`binary.h`, lines 112--126), parameterised by
the runtime vector length `vl = svcntb()`. -/
def simsimd_sve_b8_jaccard (vl : ℕ) (a b : List ℕ) (n : ℕ) : ℚ :=
  jaccardFinal <|
    (List.range (sveTrips vl n)).foldl
      (fun acc t =>
        (acc.1 + (List.range vl).foldl
          (fun s j => s +
            popcountW 8 (maskedByteAt a n (vl * t + j) &&& maskedByteAt b n (vl * t + j))) 0,
         acc.2 + (List.range vl).foldl
          (fun s j => s +
            popcountW 8 (maskedByteAt a n (vl * t + j) ||| maskedByteAt b n (vl * t + j))) 0))
      (0, 0)

/-- The 64-bit lane `k` of a 512-bit register whose 64 bytes are given by
`g`: little-endian assembly of bytes `8*k .. 8*k+7`. -/
def laneOfBytes (g : ℕ → ℕ) (k : ℕ) : ℕ := ∑ j ∈ Finset.range 8, g (8 * k + j) * 256 ^ j

/-- Contribution of one 512-bit chunk whose (possibly mask-zero-filled)
bytes are `g`: `_mm512_popcnt_epi64` of each of the 8 lanes, accumulated
by `_mm512_add_epi64` and finally `_mm512_reduce_add_epi64`; the 64-bit
lane accumulators cannot wrap for any representable `n_words`, so the
total is the plain sum. -/
def chunk512 (g : ℕ → ℕ) : ℕ := ∑ k ∈ Finset.range 8, popcountW 64 (laneOfBytes g k)

/-- `simsimd_avx512_b8_hamming` (`binary.h`, lines 136--160): full 64-byte
chunks with unmasked loads; when the remaining count drops below 64 (also
when `n = 0` on entry, since the `goto` loop body runs first) a final
`bzhi`-masked, zero-filled chunk processes the tail; when `n` is a
positive multiple of 64 the loop exits after the last full chunk with no
masked iteration. -/
def simsimd_avx512_b8_hamming (a b : List ℕ) (n : ℕ) : ℕ :=
  let main := (List.range (n / 64)).foldl
    (fun differences c => differences +
      chunk512 (fun j => byteAt a (64 * c + j) ^^^ byteAt b (64 * c + j))) 0
  if n % 64 = 0 ∧ n ≠ 0 then main
  else main +
    chunk512 (fun j =>
      maskedByteAt a n (64 * (n / 64) + j) ^^^ maskedByteAt b n (64 * (n / 64) + j))

/-- `simsimd_avx512_b8_jaccard` (`binary.h`, lines 162--189): the same
control flow as the AVX-512 Hamming kernel, with AND/OR popcount
accumulators and the shared final Jaccard expression. -/
def simsimd_avx512_b8_jaccard (a b : List ℕ) (n : ℕ) : ℚ :=
  let main := (List.range (n / 64)).foldl
    (fun acc c =>
      (acc.1 + chunk512 (fun j => byteAt a (64 * c + j) &&& byteAt b (64 * c + j)),
       acc.2 + chunk512 (fun j => byteAt a (64 * c + j) ||| byteAt b (64 * c + j)))) (0, 0)
  jaccardFinal <|
    if n % 64 = 0 ∧ n ≠ 0 then main
    else (main.1 +
      chunk512 (fun j =>
        maskedByteAt a n (64 * (n / 64) + j) &&& maskedByteAt b n (64 * (n / 64) + j)),
      main.2 +
      chunk512 (fun j =>
        maskedByteAt a n (64 * (n / 64) + j) ||| maskedByteAt b n (64 * (n / 64) + j)))

/-- Signed reinterpretation of a byte (`simsimd_i8_t` value, or a lane of
`_mm256_sub_epi8` output read as signed by `_mm256_maddubs_epi16`). -/
def asI8 (x : ℕ) : ℤ := if x < 128 then (x : ℤ) else (x : ℤ) - 256

/-- Signed 16-bit saturation performed by `_mm256_maddubs_epi16`. -/
def sat16 (z : ℤ) : ℤ := max (-32768) (min 32767 z)

/-- Two's-complement 16-bit encoding of a signed 16-bit value. -/
def enc16 (z : ℤ) : ℕ := (z % 65536).toNat

/-- Signed 32-bit wrap-around: the value of a 32-bit register lane holding
`z` modulo `2^32`, read as a signed integer. -/
def wrap32 (z : ℤ) : ℤ :=
  if z % 4294967296 < 2147483648 then z % 4294967296 else z % 4294967296 - 4294967296

/-- One 16-bit lane `l` of `_mm256_maddubs_epi16 f g`: the first operand's
bytes are read as unsigned, the second operand's as signed; the two
products of adjacent bytes are added with signed 16-bit saturation. -/
def maddubs (f g : ℕ → ℕ) (l : ℕ) : ℤ :=
  sat16 ((f (2 * l) : ℤ) * asI8 (g (2 * l)) + (f (2 * l + 1) : ℤ) * asI8 (g (2 * l + 1)))

/-- The signed value of 32-bit lane `k` of a 256-bit register whose 16-bit
lanes hold the values `m`: the bit pattern concatenates the two's
complement encodings of lanes `2k` (low half) and `2k+1` (high half).
This is how `_mm256_add_epi32` sees the output of
`_mm256_maddubs_epi16`. -/
def lane32 (m : ℕ → ℤ) (k : ℕ) : ℤ :=
  wrap32 ((enc16 (m (2 * k)) + 65536 * enc16 (m (2 * k + 1)) : ℕ) : ℤ)

/-- The horizontal reduction shared by the AVX2 kernels
(`x86_avx2_i8.h`, lines 32--36 and 69--87): split the 256-bit accumulator
into 128-bit halves, `_mm_add_epi32` them (`p`), then two
`_mm_hadd_epi32` steps and `_mm_extract_epi32(..., 0)`, every 32-bit
addition wrapping. -/
def reduce256 (acc : ℕ → ℤ) : ℤ :=
  let p : ℕ → ℤ := fun k => wrap32 (acc k + acc (4 + k))
  wrap32 (wrap32 (p 0 + p 1) + wrap32 (p 2 + p 3))

/-- The eight 32-bit lanes of the `d2_vec` accumulator of
`simsimd_avx2_i8_l2sq` (`x86_avx2_i8.h`, lines 19--30) after the chunked
loop: per 32-byte chunk, `_mm256_sub_epi8` wraps each byte difference,
`_mm256_maddubs_epi16 d_vec d_vec` multiplies each difference byte as
unsigned by itself as signed and pairwise-adds with saturation, and
`_mm256_add_epi32` accumulates the resulting register as 32-bit lanes. -/
def simsimd_avx2_i8_l2sq_acc (a b : List ℕ) (d : ℕ) : ℕ → ℤ :=
  (List.range (d / 32)).foldl
    (fun acc c =>
      let dByte : ℕ → ℕ :=
        fun j => (byteAt a (32 * c + j) + 256 - byteAt b (32 * c + j)) % 256
      fun k => wrap32 (acc k + lane32 (maddubs dByte dByte) k))
    (fun _ => 0)

/-- `simsimd_avx2_i8_l2sq` (`x86_avx2_i8.h`, lines 19--45): reduce the
vector accumulator, then the scalar tail loop
`int d = a[i] - b[i]; d2 += d * d;` on the remaining elements.  The C
function returns `(simsimd_f32_t)d2`; the signed 32-bit integer `d2` is
what the claims are about. -/
def simsimd_avx2_i8_l2sq (a b : List ℕ) (d : ℕ) : ℤ :=
  (List.range' (32 * (d / 32)) (d - 32 * (d / 32))).foldl
    (fun d2 i =>
      wrap32 (d2 + (asI8 (byteAt a i) - asI8 (byteAt b i)) *
        (asI8 (byteAt a i) - asI8 (byteAt b i))))
    (reduce256 (simsimd_avx2_i8_l2sq_acc a b d))

/-- What the claims call the exact squared Euclidean distance of two
signed 8-bit vectors. -/
def l2sqSpec (a b : List ℕ) (d : ℕ) : ℤ :=
  ∑ i ∈ Finset.range d, (asI8 (byteAt a i) - asI8 (byteAt b i)) *
    (asI8 (byteAt a i) - asI8 (byteAt b i))

/-- The three reduced scalar accumulators `(ab, a2, b2)` of
`simsimd_avx2_i8_cos` (`x86_avx2_i8.h`, lines 47--93) after the chunked
loop (`_mm256_maddubs_epi16` on `(a,b)`, `(a,a)`, `(b,b)`, accumulated by
`_mm256_add_epi32`), horizontal reduction, and the scalar tail loop. -/
def simsimd_avx2_i8_cos_sums (a b : List ℕ) (d : ℕ) : ℤ × ℤ × ℤ :=
  let acc := (List.range (d / 32)).foldl
    (fun (st : (ℕ → ℤ) × (ℕ → ℤ) × (ℕ → ℤ)) c =>
      let av : ℕ → ℕ := fun j => byteAt a (32 * c + j)
      let bv : ℕ → ℕ := fun j => byteAt b (32 * c + j)
      ((fun k => wrap32 (st.1 k + lane32 (maddubs av bv) k)),
       (fun k => wrap32 (st.2.1 k + lane32 (maddubs av av) k)),
       (fun k => wrap32 (st.2.2 k + lane32 (maddubs bv bv) k))))
    ((fun _ => (0 : ℤ)), (fun _ => (0 : ℤ)), (fun _ => (0 : ℤ)))
  (List.range' (32 * (d / 32)) (d - 32 * (d / 32))).foldl
    (fun s i =>
      (wrap32 (s.1 + asI8 (byteAt a i) * asI8 (byteAt b i)),
       wrap32 (s.2.1 + asI8 (byteAt a i) * asI8 (byteAt a i)),
       wrap32 (s.2.2 + asI8 (byteAt b i) * asI8 (byteAt b i))))
    (reduce256 acc.1, reduce256 acc.2.1, reduce256 acc.2.2)

/-- `simsimd_avx2_i8_cos` (`x86_avx2_i8.h`, lines 47--93):
`1 - ab * simsimd_approximate_inverse_square_root(a2 * b2)`, where the
`int` product `a2 * b2` wraps at 32 bits.
`simsimd_approximate_inverse_square_root` lives in `types.h`, which is not
part of the visible sources, so the final floating-point step is
parameterised by an arbitrary function `rsqrt`. -/
def simsimd_avx2_i8_cos (rsqrt : ℤ → ℚ) (a b : List ℕ) (d : ℕ) : ℚ :=
  let s := simsimd_avx2_i8_cos_sums a b d
  1 - (s.1 : ℚ) * rsqrt (wrap32 (s.2.1 * s.2.2))

/-- `simsimd_avx2_i8_ip` (`x86_avx2_i8.h`, lines 95--97): a direct call to
`simsimd_avx2_i8_cos`. -/
def simsimd_avx2_i8_ip (rsqrt : ℤ → ℚ) (a b : List ℕ) (d : ℕ) : ℚ :=
  simsimd_avx2_i8_cos rsqrt a b d

lemma byteAt_lt (a : List ℕ) (i : ℕ) : byteAt a i < 256 :=
  Nat.mod_lt _ (by norm_num)

set_option maxRecDepth 40000 in
lemma table_eq_popcountW : ∀ x : ℕ, x < 256 → simsimd_popcount_b8 x = popcountW 8 x := by
  decide

lemma xor_byte_lt (a b : List ℕ) (i j : ℕ) : byteAt a i ^^^ byteAt b j < 256 :=
  Nat.bitwise_lt (n := 8) (byteAt_lt a i) (byteAt_lt b j)

lemma and_byte_lt (a b : List ℕ) (i j : ℕ) : byteAt a i &&& byteAt b j < 256 :=
  Nat.bitwise_lt (n := 8) (byteAt_lt a i) (byteAt_lt b j)

lemma or_byte_lt (a b : List ℕ) (i j : ℕ) : byteAt a i ||| byteAt b j < 256 :=
  Nat.bitwise_lt (n := 8) (byteAt_lt a i) (byteAt_lt b j)

/-- A `for`-loop that adds `pc i` for every `i < n` is the corresponding
finite sum. -/
lemma foldl_add_range (pc : ℕ → ℕ) (z n : ℕ) :
    (List.range n).foldl (fun acc i => acc + pc i) z = z + ∑ i ∈ Finset.range n, pc i := by
  induction n generalizing z with
  | zero => simp
  | succ m ih =>
      rw [List.range_succ, List.foldl_append, ih, Finset.sum_range_succ]
      simp [Nat.add_assoc]

/-- Pair version of `foldl_add_range`, for the joint intersection/union
loop of the Jaccard kernels. -/
lemma foldl_add_range_pair (p q : ℕ → ℕ) (z : ℕ × ℕ) (n : ℕ) :
    (List.range n).foldl (fun acc i => (acc.1 + p i, acc.2 + q i)) z =
      (z.1 + ∑ i ∈ Finset.range n, p i, z.2 + ∑ i ∈ Finset.range n, q i) := by
  induction n generalizing z with
  | zero => simp
  | succ m ih =>
      rw [List.range_succ, List.foldl_append, ih, Finset.sum_range_succ, Finset.sum_range_succ]
      simp [Nat.add_assoc]

lemma serial_hamming_eq_spec (a b : List ℕ) (n : ℕ) :
    simsimd_serial_b8_hamming a b n = hammingSpec a b n := by
  rw [simsimd_serial_b8_hamming, foldl_add_range, hammingSpec, Nat.zero_add]
  exact Finset.sum_congr rfl fun i _ => table_eq_popcountW _ (xor_byte_lt a b i i)

lemma serial_jaccard_counts_eq_spec (a b : List ℕ) (n : ℕ) :
    simsimd_serial_b8_jaccard_counts a b n = (interSpec a b n, unionSpec a b n) := by
  rw [simsimd_serial_b8_jaccard_counts, foldl_add_range_pair]
  refine Prod.ext ?_ ?_ <;> simp only [interSpec, unionSpec, Nat.zero_add]
  · exact Finset.sum_congr rfl fun i _ => table_eq_popcountW _ (and_byte_lt a b i i)
  · exact Finset.sum_congr rfl fun i _ => table_eq_popcountW _ (or_byte_lt a b i i)

/-- Summing a per-index quantity chunk by chunk (`q` chunks of width `w`)
is summing it over the flat index range. -/
lemma sum_chunks (pc : ℕ → ℕ) (w q : ℕ) :
    ∑ c ∈ Finset.range q, ∑ j ∈ Finset.range w, pc (w * c + j) =
      ∑ i ∈ Finset.range (w * q), pc i := by
  induction q with
  | zero => simp
  | succ q ih =>
      rw [Finset.sum_range_succ, ih, Nat.mul_succ,
        ← Finset.sum_range_add_sum_Ico pc (Nat.le_add_right (w * q) w),
        Finset.sum_Ico_eq_sum_range, Nat.add_sub_cancel_left]

/-- A `for`-loop over indices `s, s+1, ..., s+k-1` that adds `pc i` is the
corresponding finite sum (used for the scalar tail loops). -/
lemma foldl_add_range_tail (pc : ℕ → ℕ) (z s k : ℕ) :
    (List.range' s k).foldl (fun acc i => acc + pc i) z =
      z + ∑ j ∈ Finset.range k, pc (s + j) := by
  induction k generalizing s z with
  | zero => simp
  | succ k ih =>
      rw [List.range'_succ, List.foldl_cons, ih, Finset.sum_range_succ']
      have hidx : ∀ j, s + 1 + j = s + (j + 1) := fun j => by omega
      simp only [hidx, Nat.add_zero]
      omega

/-- Pair version of `foldl_add_range_tail`, for the joint
intersection/union tail loop of the NEON Jaccard kernel. -/
lemma foldl_add_range_tail_pair (p q : ℕ → ℕ) (z : ℕ × ℕ) (s k : ℕ) :
    (List.range' s k).foldl (fun acc i => (acc.1 + p i, acc.2 + q i)) z =
      (z.1 + ∑ j ∈ Finset.range k, p (s + j), z.2 + ∑ j ∈ Finset.range k, q (s + j)) := by
  induction k generalizing s z with
  | zero => simp
  | succ k ih =>
      rw [List.range'_succ, List.foldl_cons, ih, Finset.sum_range_succ' (fun j => p (s + j)),
        Finset.sum_range_succ' (fun j => q (s + j))]
      have hidx : ∀ j, s + 1 + j = s + (j + 1) := fun j => by omega
      simp only [hidx, Nat.add_zero]
      refine Prod.ext ?_ ?_ <;> dsimp only <;> omega

lemma popcountW_zero_val (w : ℕ) : popcountW w 0 = 0 := by
  simp [popcountW]

/-- Splitting the popcount of `2^k * y + x` at bit `k`. -/
lemma popcountW_split (k w x y : ℕ) (hx : x < 2 ^ k) :
    popcountW (k + w) (2 ^ k * y + x) = popcountW k x + popcountW w y := by
  unfold popcountW
  rw [← Finset.sum_range_add_sum_Ico (fun t => if (2 ^ k * y + x).testBit t then 1 else 0)
    (Nat.le_add_right k w)]
  have h1 : ∑ t ∈ Finset.range k, (if (2 ^ k * y + x).testBit t then 1 else 0) =
      ∑ t ∈ Finset.range k, (if x.testBit t then (1 : ℕ) else 0) :=
    Finset.sum_congr rfl fun t ht => by
      rw [Nat.testBit_mul_pow_two_add _ hx, if_pos (Finset.mem_range.mp ht)]
  have h2 : ∑ t ∈ Finset.Ico k (k + w), (if (2 ^ k * y + x).testBit t then 1 else 0) =
      ∑ t ∈ Finset.range w, (if y.testBit t then (1 : ℕ) else 0) := by
    rw [Finset.sum_Ico_eq_sum_range]
    simp only [Nat.add_sub_cancel_left]
    exact Finset.sum_congr rfl fun t _ => by
      rw [Nat.testBit_mul_pow_two_add _ hx, if_neg (show ¬(k + t < k) by omega),
        Nat.add_sub_cancel_left]
  rw [h1, h2]

/-- Popcount of a little-endian base-256 assembly of `m` bytes is the sum
of the per-byte popcounts. -/
lemma popcountW_base256 (m : ℕ) (g : ℕ → ℕ) (hg : ∀ j, g j < 256) :
    popcountW (8 * m) (∑ j ∈ Finset.range m, g j * 256 ^ j) =
      ∑ j ∈ Finset.range m, popcountW 8 (g j) := by
  induction m generalizing g with
  | zero => simpa using popcountW_zero_val 0
  | succ m ih =>
      have hsum : (∑ j ∈ Finset.range (m + 1), g j * 256 ^ j) =
          2 ^ 8 * (∑ j ∈ Finset.range m, g (j + 1) * 256 ^ j) + g 0 := by
        rw [Finset.sum_range_succ', Finset.mul_sum]
        simp only [pow_zero, mul_one, pow_succ]
        congr 1
        exact Finset.sum_congr rfl fun j _ => by ring
      have h8 : 8 * (m + 1) = 8 + 8 * m := by ring
      rw [hsum, h8, popcountW_split _ _ _ _ (by simpa using hg 0),
        ih (fun j => g (j + 1)) (fun j => hg (j + 1)),
        Finset.sum_range_succ' (fun j => popcountW 8 (g j))]
      omega

/-- A full 512-bit chunk contributes exactly the sum of the popcounts of
its 64 bytes. -/
lemma chunk512_eq (g : ℕ → ℕ) (hg : ∀ j, g j < 256) :
    chunk512 g = ∑ i ∈ Finset.range 64, popcountW 8 (g i) := by
  unfold chunk512
  have hlane : ∀ k, popcountW 64 (laneOfBytes g k) =
      ∑ j ∈ Finset.range 8, popcountW 8 (g (8 * k + j)) := by
    intro k
    have := popcountW_base256 8 (fun j => g (8 * k + j)) (fun j => hg _)
    simpa [laneOfBytes] using this
  calc ∑ k ∈ Finset.range 8, popcountW 64 (laneOfBytes g k)
      = ∑ k ∈ Finset.range 8, ∑ j ∈ Finset.range 8, popcountW 8 (g (8 * k + j)) :=
        Finset.sum_congr rfl fun k _ => hlane k
    _ = ∑ i ∈ Finset.range 64, popcountW 8 (g i) := sum_chunks (fun i => popcountW 8 (g i)) 8 8

lemma maskedByteAt_lt (a : List ℕ) (n i : ℕ) : maskedByteAt a n i < 256 := by
  unfold maskedByteAt
  split
  · exact byteAt_lt a i
  · norm_num

lemma masked_xor_pc (a b : List ℕ) (n i : ℕ) :
    popcountW 8 (maskedByteAt a n i ^^^ maskedByteAt b n i) =
      if i < n then popcountW 8 (byteAt a i ^^^ byteAt b i) else 0 := by
  unfold maskedByteAt
  by_cases h : i < n <;> simp [h, popcountW_zero_val]

lemma masked_and_pc (a b : List ℕ) (n i : ℕ) :
    popcountW 8 (maskedByteAt a n i &&& maskedByteAt b n i) =
      if i < n then popcountW 8 (byteAt a i &&& byteAt b i) else 0 := by
  unfold maskedByteAt
  by_cases h : i < n <;> simp [h, popcountW_zero_val]

lemma masked_or_pc (a b : List ℕ) (n i : ℕ) :
    popcountW 8 (maskedByteAt a n i ||| maskedByteAt b n i) =
      if i < n then popcountW 8 (byteAt a i ||| byteAt b i) else 0 := by
  unfold maskedByteAt
  by_cases h : i < n <;> simp [h, popcountW_zero_val]

/-- A window of `w` guarded terms starting at `m` sums to the interval sum
clipped at `n`. -/
lemma sum_ite_window (pc : ℕ → ℕ) (m w n : ℕ) :
    ∑ j ∈ Finset.range w, (if m + j < n then pc (m + j) else 0) =
      ∑ i ∈ Finset.Ico m (min (m + w) n), pc i := by
  have h1 : ∑ i ∈ Finset.Ico m (m + w), (if i < n then pc i else 0) =
      ∑ j ∈ Finset.range w, (if m + j < n then pc (m + j) else 0) := by
    rw [Finset.sum_Ico_eq_sum_range, Nat.add_sub_cancel_left]
  rw [← h1, ← Finset.sum_filter, Finset.Ico_filter_lt]

/-- The guarded chunk sums of the SVE loops cover `Finset.range n` exactly
once. -/
lemma sve_sum (pc : ℕ → ℕ) (vl n : ℕ) (hvl : 0 < vl) :
    ∑ t ∈ Finset.range (sveTrips vl n),
        ∑ j ∈ Finset.range vl, (if vl * t + j < n then pc (vl * t + j) else 0) =
      ∑ i ∈ Finset.range n, pc i := by
  have key : ∀ T, ∑ t ∈ Finset.range T,
      ∑ j ∈ Finset.range vl, (if vl * t + j < n then pc (vl * t + j) else 0) =
        ∑ i ∈ Finset.range (min (vl * T) n), pc i := by
    intro T
    induction T with
    | zero => simp
    | succ T ih =>
        rw [Finset.sum_range_succ, ih, sum_ite_window]
        rcases le_or_lt (vl * T) n with hle | hlt
        · have hcons : ∑ i ∈ Finset.Ico 0 (vl * T), pc i +
              ∑ i ∈ Finset.Ico (vl * T) (min (vl * T + vl) n), pc i =
                ∑ i ∈ Finset.Ico 0 (min (vl * T + vl) n), pc i :=
            Finset.sum_Ico_consecutive pc (Nat.zero_le _)
              (le_min (Nat.le_add_right _ _) hle)
          rw [min_eq_left hle, Finset.range_eq_Ico, hcons, ← Finset.range_eq_Ico, Nat.mul_succ]
        · have hmin : min (vl * T) n = n := min_eq_right hlt.le
          have hempty : Finset.Ico (vl * T) (min (vl * T + vl) n) = ∅ :=
            Finset.Ico_eq_empty (by omega)
          have hmin2 : min (vl * (T + 1)) n = n := min_eq_right (by
            calc n ≤ vl * T := hlt.le
              _ ≤ vl * (T + 1) := Nat.mul_le_mul_left vl (Nat.le_succ T))
          rw [hmin, hempty, Finset.sum_empty, Nat.add_zero, hmin2]
  rw [key]
  have htrip : n ≤ vl * sveTrips vl n := by
    unfold sveTrips
    rcases Nat.eq_zero_or_pos n with h0 | hpos
    · omega
    · have h1 : 1 ≤ (n + vl - 1) / vl := (Nat.one_le_div_iff hvl).mpr (by omega)
      rw [max_eq_right h1]
      have hd := Nat.div_add_mod (n + vl - 1) vl
      have hm : (n + vl - 1) % vl < vl := Nat.mod_lt _ hvl
      generalize hP : vl * ((n + vl - 1) / vl) = P at hd ⊢
      omega
  rw [min_eq_right htrip]

lemma neon_hamming_eq_spec (a b : List ℕ) (n : ℕ) :
    simsimd_neon_b8_hamming a b n = hammingSpec a b n := by
  have hle : 16 * (n / 16) ≤ n := by omega
  have htab : ∀ i, simsimd_popcount_b8 (byteAt a i ^^^ byteAt b i) =
      popcountW 8 (byteAt a i ^^^ byteAt b i) :=
    fun i => table_eq_popcountW _ (xor_byte_lt a b i i)
  simp only [simsimd_neon_b8_hamming, foldl_add_range, foldl_add_range_tail, Nat.zero_add, htab]
  rw [sum_chunks (fun i => popcountW 8 (byteAt a i ^^^ byteAt b i)) 16 (n / 16)]
  have htail : ∑ j ∈ Finset.range (n - 16 * (n / 16)),
      popcountW 8 (byteAt a (16 * (n / 16) + j) ^^^ byteAt b (16 * (n / 16) + j)) =
        ∑ i ∈ Finset.Ico (16 * (n / 16)) n, popcountW 8 (byteAt a i ^^^ byteAt b i) := by
    rw [Finset.sum_Ico_eq_sum_range]
  rw [htail, Finset.sum_range_add_sum_Ico _ hle, hammingSpec]

lemma masked_xor_lt (a b : List ℕ) (n i j : ℕ) :
    maskedByteAt a n i ^^^ maskedByteAt b n j < 256 :=
  Nat.bitwise_lt (n := 8) (maskedByteAt_lt a n i) (maskedByteAt_lt b n j)

lemma masked_and_lt (a b : List ℕ) (n i j : ℕ) :
    maskedByteAt a n i &&& maskedByteAt b n j < 256 :=
  Nat.bitwise_lt (n := 8) (maskedByteAt_lt a n i) (maskedByteAt_lt b n j)

lemma masked_or_lt (a b : List ℕ) (n i j : ℕ) :
    maskedByteAt a n i ||| maskedByteAt b n j < 256 :=
  Nat.bitwise_lt (n := 8) (maskedByteAt_lt a n i) (maskedByteAt_lt b n j)

lemma sve_hamming_eq_spec (vl : ℕ) (a b : List ℕ) (n : ℕ) (hvl : 0 < vl) :
    simsimd_sve_b8_hamming vl a b n = hammingSpec a b n := by
  simp only [simsimd_sve_b8_hamming, foldl_add_range, Nat.zero_add, masked_xor_pc]
  unfold hammingSpec
  exact sve_sum (fun i => popcountW 8 (byteAt a i ^^^ byteAt b i)) vl n hvl

lemma avx512_hamming_eq_spec (a b : List ℕ) (n : ℕ) :
    simsimd_avx512_b8_hamming a b n = hammingSpec a b n := by
  have hle : 64 * (n / 64) ≤ n := by omega
  have hlt : n < 64 * (n / 64) + 64 := by omega
  have hchunk : ∀ c, chunk512 (fun j => byteAt a (64 * c + j) ^^^ byteAt b (64 * c + j)) =
      ∑ j ∈ Finset.range 64, popcountW 8 (byteAt a (64 * c + j) ^^^ byteAt b (64 * c + j)) :=
    fun c => chunk512_eq _ (fun j => xor_byte_lt a b _ _)
  have hmasked : chunk512 (fun j =>
      maskedByteAt a n (64 * (n / 64) + j) ^^^ maskedByteAt b n (64 * (n / 64) + j)) =
        ∑ i ∈ Finset.Ico (64 * (n / 64)) n, popcountW 8 (byteAt a i ^^^ byteAt b i) := by
    rw [chunk512_eq _ (fun j => masked_xor_lt a b n _ _)]
    simp only [masked_xor_pc]
    have hw := sum_ite_window (fun i => popcountW 8 (byteAt a i ^^^ byteAt b i))
      (64 * (n / 64)) 64 n
    rw [min_eq_right hlt.le] at hw
    exact hw
  simp only [simsimd_avx512_b8_hamming, foldl_add_range, Nat.zero_add, hchunk, hmasked]
  rw [sum_chunks (fun i => popcountW 8 (byteAt a i ^^^ byteAt b i)) 64 (n / 64)]
  by_cases hbr : n % 64 = 0 ∧ n ≠ 0
  · rw [if_pos hbr]
    have : 64 * (n / 64) = n := by omega
    rw [this, hammingSpec]
  · rw [if_neg hbr, Finset.sum_range_add_sum_Ico _ hle, hammingSpec]

/-- Chunked main loop of width `w` plus scalar tail loop cover
`Finset.range n` exactly once. -/
lemma chunk_tail_cover (pc : ℕ → ℕ) (w n : ℕ) :
    (∑ c ∈ Finset.range (n / w), ∑ j ∈ Finset.range w, pc (w * c + j)) +
      ∑ j ∈ Finset.range (n - w * (n / w)), pc (w * (n / w) + j) =
        ∑ i ∈ Finset.range n, pc i := by
  rw [sum_chunks]
  have hle : w * (n / w) ≤ n := by
    calc w * (n / w) = n / w * w := Nat.mul_comm _ _
      _ ≤ n := Nat.div_mul_le_self n w
  have htail : ∑ j ∈ Finset.range (n - w * (n / w)), pc (w * (n / w) + j) =
      ∑ i ∈ Finset.Ico (w * (n / w)) n, pc i := by
    rw [Finset.sum_Ico_eq_sum_range]
  rw [htail, Finset.sum_range_add_sum_Ico _ hle]

/-- Full 64-byte chunks plus the clipped masked tail interval cover
`Finset.range n` exactly once. -/
lemma avx512_cover (pc : ℕ → ℕ) (n : ℕ) :
    (∑ c ∈ Finset.range (n / 64), ∑ j ∈ Finset.range 64, pc (64 * c + j)) +
      ∑ i ∈ Finset.Ico (64 * (n / 64)) n, pc i = ∑ i ∈ Finset.range n, pc i := by
  rw [sum_chunks, Finset.sum_range_add_sum_Ico _ (by omega)]

/-- When `n` is a multiple of 64 the full chunks alone cover
`Finset.range n`. -/
lemma avx512_cover_exact (pc : ℕ → ℕ) (n : ℕ) (h : n % 64 = 0) :
    (∑ c ∈ Finset.range (n / 64), ∑ j ∈ Finset.range 64, pc (64 * c + j)) =
      ∑ i ∈ Finset.range n, pc i := by
  rw [sum_chunks]
  have hmul : 64 * (n / 64) = n := by omega
  rw [hmul]

lemma neon_jaccard_eq_spec (a b : List ℕ) (n : ℕ) :
    simsimd_neon_b8_jaccard a b n = jaccardFinal (interSpec a b n, unionSpec a b n) := by
  have htabA : ∀ i, simsimd_popcount_b8 (byteAt a i &&& byteAt b i) =
      popcountW 8 (byteAt a i &&& byteAt b i) :=
    fun i => table_eq_popcountW _ (and_byte_lt a b i i)
  have htabO : ∀ i, simsimd_popcount_b8 (byteAt a i ||| byteAt b i) =
      popcountW 8 (byteAt a i ||| byteAt b i) :=
    fun i => table_eq_popcountW _ (or_byte_lt a b i i)
  simp only [simsimd_neon_b8_jaccard, foldl_add_range_pair, foldl_add_range_tail_pair,
    foldl_add_range, Nat.zero_add, htabA, htabO]
  refine congrArg jaccardFinal (Prod.ext ?_ ?_)
  · exact chunk_tail_cover (fun i => popcountW 8 (byteAt a i &&& byteAt b i)) 16 n
  · exact chunk_tail_cover (fun i => popcountW 8 (byteAt a i ||| byteAt b i)) 16 n

lemma sve_jaccard_eq_spec (vl : ℕ) (a b : List ℕ) (n : ℕ) (hvl : 0 < vl) :
    simsimd_sve_b8_jaccard vl a b n = jaccardFinal (interSpec a b n, unionSpec a b n) := by
  simp only [simsimd_sve_b8_jaccard, foldl_add_range_pair, foldl_add_range, Nat.zero_add,
    masked_and_pc, masked_or_pc]
  refine congrArg jaccardFinal (Prod.ext ?_ ?_)
  · exact sve_sum (fun i => popcountW 8 (byteAt a i &&& byteAt b i)) vl n hvl
  · exact sve_sum (fun i => popcountW 8 (byteAt a i ||| byteAt b i)) vl n hvl

lemma avx512_jaccard_eq_spec (a b : List ℕ) (n : ℕ) :
    simsimd_avx512_b8_jaccard a b n = jaccardFinal (interSpec a b n, unionSpec a b n) := by
  have hlt : n < 64 * (n / 64) + 64 := by omega
  have hchunkA : ∀ c, chunk512 (fun j => byteAt a (64 * c + j) &&& byteAt b (64 * c + j)) =
      ∑ j ∈ Finset.range 64, popcountW 8 (byteAt a (64 * c + j) &&& byteAt b (64 * c + j)) :=
    fun c => chunk512_eq _ (fun j => and_byte_lt a b _ _)
  have hchunkO : ∀ c, chunk512 (fun j => byteAt a (64 * c + j) ||| byteAt b (64 * c + j)) =
      ∑ j ∈ Finset.range 64, popcountW 8 (byteAt a (64 * c + j) ||| byteAt b (64 * c + j)) :=
    fun c => chunk512_eq _ (fun j => or_byte_lt a b _ _)
  have hmaskedA : chunk512 (fun j =>
      maskedByteAt a n (64 * (n / 64) + j) &&& maskedByteAt b n (64 * (n / 64) + j)) =
        ∑ i ∈ Finset.Ico (64 * (n / 64)) n, popcountW 8 (byteAt a i &&& byteAt b i) := by
    rw [chunk512_eq _ (fun j => masked_and_lt a b n _ _)]
    simp only [masked_and_pc]
    have hw := sum_ite_window (fun i => popcountW 8 (byteAt a i &&& byteAt b i))
      (64 * (n / 64)) 64 n
    rw [min_eq_right hlt.le] at hw
    exact hw
  have hmaskedO : chunk512 (fun j =>
      maskedByteAt a n (64 * (n / 64) + j) ||| maskedByteAt b n (64 * (n / 64) + j)) =
        ∑ i ∈ Finset.Ico (64 * (n / 64)) n, popcountW 8 (byteAt a i ||| byteAt b i) := by
    rw [chunk512_eq _ (fun j => masked_or_lt a b n _ _)]
    simp only [masked_or_pc]
    have hw := sum_ite_window (fun i => popcountW 8 (byteAt a i ||| byteAt b i))
      (64 * (n / 64)) 64 n
    rw [min_eq_right hlt.le] at hw
    exact hw
  simp only [simsimd_avx512_b8_jaccard, foldl_add_range_pair, Nat.zero_add,
    hchunkA, hchunkO, hmaskedA, hmaskedO]
  by_cases hbr : n % 64 = 0 ∧ n ≠ 0
  · rw [if_pos hbr]
    refine congrArg jaccardFinal (Prod.ext ?_ ?_)
    · exact avx512_cover_exact (fun i => popcountW 8 (byteAt a i &&& byteAt b i)) n hbr.1
    · exact avx512_cover_exact (fun i => popcountW 8 (byteAt a i ||| byteAt b i)) n hbr.1
  · rw [if_neg hbr]
    refine congrArg jaccardFinal (Prod.ext ?_ ?_)
    · exact avx512_cover (fun i => popcountW 8 (byteAt a i &&& byteAt b i)) n
    · exact avx512_cover (fun i => popcountW 8 (byteAt a i ||| byteAt b i)) n

lemma serial_jaccard_eq_spec (a b : List ℕ) (n : ℕ) :
    simsimd_serial_b8_jaccard a b n = jaccardFinal (interSpec a b n, unionSpec a b n) := by
  rw [simsimd_serial_b8_jaccard, serial_jaccard_counts_eq_spec]

/-- A fold whose step fixes the initial state never leaves it. -/
lemma foldl_fixed {α β : Type} (f : α → β → α) (z : α) (h : ∀ x, f z x = z) :
    ∀ l : List β, l.foldl f z = z := by
  intro l
  induction l with
  | nil => rfl
  | cons x xs ih => rw [List.foldl_cons, h, ih]

lemma wrap32_zero : wrap32 0 = 0 := by norm_num [wrap32]

lemma maddubs_zero : maddubs (fun _ => 0) (fun _ => 0) = fun _ => 0 :=
  funext fun l => by norm_num [maddubs, asI8, sat16]

lemma lane32_zero : lane32 (fun _ => 0) = fun _ => 0 :=
  funext fun k => by norm_num [lane32, enc16, wrap32]

lemma reduce256_zero : reduce256 (fun _ => 0) = 0 := by norm_num [reduce256, wrap32]

lemma l2sq_acc_self (a : List ℕ) (d : ℕ) :
    simsimd_avx2_i8_l2sq_acc a a d = fun _ => 0 := by
  unfold simsimd_avx2_i8_l2sq_acc
  apply foldl_fixed
  intro c
  have hdb : (fun j => (byteAt a (32 * c + j) + 256 - byteAt a (32 * c + j)) % 256) =
      fun _ => (0 : ℕ) := funext fun j => by omega
  simp only [hdb, maddubs_zero, lane32_zero]
  funext k
  simp [wrap32_zero]

/-- The squared-distance kernel on two identical operands returns 0: every
byte difference is 0, every multiply-add lane is 0, and the tail adds
`0 * 0`. -/
lemma l2sq_self (a : List ℕ) (d : ℕ) : simsimd_avx2_i8_l2sq a a d = 0 := by
  unfold simsimd_avx2_i8_l2sq
  rw [l2sq_acc_self, reduce256_zero]
  apply foldl_fixed
  intro i
  simp [wrap32_zero]

lemma l2sq_zero_len (a b : List ℕ) : simsimd_avx2_i8_l2sq a b 0 = 0 := by
  unfold simsimd_avx2_i8_l2sq simsimd_avx2_i8_l2sq_acc
  norm_num [reduce256, wrap32]

lemma hammingSpec_zero (a b : List ℕ) : hammingSpec a b 0 = 0 := by
  simp [hammingSpec]

lemma jaccard_specs_zero (a b : List ℕ) :
    jaccardFinal (interSpec a b 0, unionSpec a b 0) = 0 := by
  simp [interSpec, unionSpec, jaccardFinal]

/-- C4: `simsimd_serial_b8_jaccard` returns `1 - intersection/union`
(popcounts of per-word AND and OR) when the union is nonzero and exactly 0
when the union is zero; in particular it returns 0 on two all-zero
inputs. -/
theorem claim_C4_serial_jaccard_formula (a b : List ℕ) (n : ℕ) :
    simsimd_serial_b8_jaccard a b n =
      (if unionSpec a b n ≠ 0 then
        1 - (interSpec a b n : ℚ) / (unionSpec a b n : ℚ) else 0) ∧
    simsimd_serial_b8_jaccard (List.replicate n 0) (List.replicate n 0) n = 0 := by
  constructor
  · rw [serial_jaccard_eq_spec]
    rfl
  · rw [serial_jaccard_eq_spec]
    have hz : ∀ i, byteAt (List.replicate n (0 : ℕ)) i = 0 := by
      intro i
      simp [byteAt, List.getD]
    have hU : unionSpec (List.replicate n 0) (List.replicate n 0) n = 0 := by
      simp [unionSpec, hz, popcountW_zero_val]
    simp [jaccardFinal, hU]

/-- C8: the scalar Hamming kernel is symmetric in its operands and
vanishes on two identical operands. -/
theorem claim_C8_hamming_symm_id (a b : List ℕ) (n : ℕ) :
    simsimd_serial_b8_hamming a b n = simsimd_serial_b8_hamming b a n ∧
    simsimd_serial_b8_hamming a a n = 0 := by
  constructor
  · rw [serial_hamming_eq_spec, serial_hamming_eq_spec]
    unfold hammingSpec
    exact Finset.sum_congr rfl fun i _ => by rw [Nat.xor_comm]
  · rw [serial_hamming_eq_spec]
    unfold hammingSpec
    simp [Nat.xor_self, popcountW_zero_val]

/-- C9: `simsimd_popcount_b8` returns the number of set bits of its byte
argument, a value between 0 and 8, for every byte value. -/
theorem claim_C9_popcount_table (x : ℕ) (hx : x < 256) :
    simsimd_popcount_b8 x = popcountW 8 x ∧ simsimd_popcount_b8 x ≤ 8 := by
  refine ⟨table_eq_popcountW x hx, ?_⟩
  rw [table_eq_popcountW x hx]
  calc popcountW 8 x ≤ ∑ t ∈ Finset.range 8, 1 :=
        Finset.sum_le_sum (fun t _ => by split <;> omega)
    _ = 8 := by simp

theorem claim_C9_witness :
    202 < 256 ∧ (simsimd_popcount_b8 202 = popcountW 8 202 ∧ simsimd_popcount_b8 202 ≤ 8) :=
  ⟨by norm_num, claim_C9_popcount_table 202 (by norm_num)⟩

/-- C3: `simsimd_avx2_i8_ip` and `simsimd_avx2_i8_cos` are extensionally
equal — the inner-product kernel is a direct call to the cosine kernel —
for every operand pair, length, and inverse-square-root routine. -/
theorem claim_C3_ip_eq_cos (rsqrt : ℤ → ℚ) (a b : List ℕ) (d : ℕ) :
    simsimd_avx2_i8_ip rsqrt a b d = simsimd_avx2_i8_cos rsqrt a b d := rfl

/-- C10: on length 0 every binary-metric kernel (serial, NEON, SVE with
any positive vector length, AVX-512) and the AVX2 squared-distance kernel
return exactly 0, for arbitrary operand contents (the results do not
depend on the lists, so nothing is read). -/
theorem claim_C10_zero_length (a b c e : List ℕ) (vl : ℕ) (hvl : 0 < vl) :
    simsimd_serial_b8_hamming a b 0 = 0 ∧ simsimd_serial_b8_jaccard a b 0 = 0 ∧
    simsimd_neon_b8_hamming a b 0 = 0 ∧ simsimd_neon_b8_jaccard a b 0 = 0 ∧
    simsimd_sve_b8_hamming vl a b 0 = 0 ∧ simsimd_sve_b8_jaccard vl a b 0 = 0 ∧
    simsimd_avx512_b8_hamming a b 0 = 0 ∧ simsimd_avx512_b8_jaccard a b 0 = 0 ∧
    simsimd_avx2_i8_l2sq c e 0 = 0 :=
  ⟨by rw [serial_hamming_eq_spec, hammingSpec_zero],
   by rw [serial_jaccard_eq_spec, jaccard_specs_zero],
   by rw [neon_hamming_eq_spec, hammingSpec_zero],
   by rw [neon_jaccard_eq_spec, jaccard_specs_zero],
   by rw [sve_hamming_eq_spec vl a b 0 hvl, hammingSpec_zero],
   by rw [sve_jaccard_eq_spec vl a b 0 hvl, jaccard_specs_zero],
   by rw [avx512_hamming_eq_spec, hammingSpec_zero],
   by rw [avx512_jaccard_eq_spec, jaccard_specs_zero],
   l2sq_zero_len c e⟩

theorem claim_C10_witness :
    0 < 16 ∧
    (simsimd_serial_b8_hamming [5] [9] 0 = 0 ∧ simsimd_serial_b8_jaccard [5] [9] 0 = 0 ∧
      simsimd_neon_b8_hamming [5] [9] 0 = 0 ∧ simsimd_neon_b8_jaccard [5] [9] 0 = 0 ∧
      simsimd_sve_b8_hamming 16 [5] [9] 0 = 0 ∧ simsimd_sve_b8_jaccard 16 [5] [9] 0 = 0 ∧
      simsimd_avx512_b8_hamming [5] [9] 0 = 0 ∧ simsimd_avx512_b8_jaccard [5] [9] 0 = 0 ∧
      simsimd_avx2_i8_l2sq [200] [7] 0 = 0) :=
  ⟨by decide, claim_C10_zero_length [5] [9] [200] [7] 16 (by decide)⟩

/-- C2 (code bug): `simsimd_avx2_i8_l2sq` does not compute the exact sum
of squared differences once the vectorised loop runs.  At `d = 32` with
`a` all ones and `b` all zeros (every per-element difference is 1, exact
answer 32), the kernel returns 1048592: `_mm256_maddubs_epi16` leaves
adjacent pair sums in 16-bit lanes and `_mm256_add_epi32` then folds each
pair of 16-bit lanes into one 32-bit lane as `lo + 65536 * hi` instead of
`lo + hi`. -/
theorem claim_C2_l2sq_not_exact :
    simsimd_avx2_i8_l2sq (List.replicate 32 1) (List.replicate 32 0) 32 = 1048592 ∧
    l2sqSpec (List.replicate 32 1) (List.replicate 32 0) 32 = 32 := by
  constructor
  · decide
  · decide

/-- C7 (code bug): the non-negativity half of the claim fails — at
`d = 32` with `a` all zeros and `b` all ones every difference byte is
`0xFF`, `_mm256_maddubs_epi16` multiplies it as unsigned 255 by signed −1,
and the kernel returns a negative value — while the identity half
`l2sq(a, a) = 0` holds for all inputs. -/
theorem claim_C7_l2sq_negative :
    simsimd_avx2_i8_l2sq (List.replicate 32 0) (List.replicate 32 1) 32 < 0 ∧
    ∀ (a : List ℕ) (d : ℕ), simsimd_avx2_i8_l2sq a a d = 0 :=
  ⟨by decide, l2sq_self⟩

/-- C6 (code bug): the three accumulated sums of `simsimd_avx2_i8_cos` are
not the dot products `a·b`, `a·a`, `b·b`.  At `d = 32` with both operands
all `-1` (byte 255) the true `a·a` is 32, but the kernel's `a2`
accumulator — `_mm256_maddubs_epi16` multiplying byte 255 as unsigned 255
by signed −1, accumulated as mixed 16/32-bit lanes — reduces to
−266866672. -/
theorem claim_C6_cos_sums_wrong :
    (simsimd_avx2_i8_cos_sums (List.replicate 32 255) (List.replicate 32 255) 32).2.1 =
      -266866672 ∧
    (∑ i ∈ Finset.range 32, asI8 (byteAt (List.replicate 32 255) i) *
      asI8 (byteAt (List.replicate 32 255) i)) = 32 := by
  constructor
  · decide
  · decide

end SimSIMD
